import Mathlib

/-!
Verification development for the rag-demo retrieval core.

The development shallowly embeds the two core source modules:

* the chunker (`chunkDocuments` in `src/lib/chunker.ts`): paragraph-aware
  document splitting with a character-window fallback, and
* the lexical scorer (`bm25Search` in `src/lib/bm25.ts`): Okapi BM25
  scoring with smoothed IDF, score filtering, descending sort and top-K.

Text is modelled as `List Char`; JavaScript numbers are modelled as `ℕ`/`ℤ`
for the integer-valued quantities of the chunker and as `ℝ` for the BM25
floating-point arithmetic.  Each definition mirrors one function of the
source; deviations forced by totality (the character-window loop) are
recorded next to the definition and justified by an explicit fuel-based
version of the raw loop together with an agreement lemma.
-/

namespace Rag

/-- Whitespace characters as matched by the JavaScript `\s` class (and
removed by `String.prototype.trim`) for the ASCII range used here:
space, tab, newline, carriage return, vertical tab, form feed. -/
def isWs (c : Char) : Bool :=
  c = ' ' || c = '\t' || c = '\n' || c = '\r' || c = '\x0b' || c = '\x0c'

/-- JavaScript `String.prototype.trim`: drop whitespace from both ends. -/
def trimChars (l : List Char) : List Char :=
  ((l.dropWhile isWs).reverse.dropWhile isWs).reverse

/-- Split on maximal runs of two or more newline characters, mirroring
`text.split(/\n{2,}/)`.  The accumulator holds the current part reversed. -/
def splitNN (acc : List Char) : List Char → List (List Char)
  | [] => [acc.reverse]
  | '\n' :: '\n' :: rest => acc.reverse :: splitNN [] (rest.dropWhile (· = '\n'))
  | c :: rest => splitNN (c :: acc) rest
  termination_by l => l.length
  decreasing_by
    · simpa using Nat.lt_succ_of_le (Nat.le_succ_of_le (List.dropWhile_sublist _).length_le)
    · simp

/-- Paragraphs of a (trimmed) text: split on double newlines, trim each
part, drop the empty ones — `text.split(/\n{2,}/).map(p => p.trim()).filter(Boolean)`. -/
def parasOf (t : List Char) : List (List Char) :=
  ((splitNN [] t).map trimChars).filter (fun p => !p.isEmpty)

/-- Join a paragraph list with double-newline separators (the form the
accumulating buffer of `chunkDocuments` takes: `currentChunk += "\n\n" + para`). -/
def joinNN : List (List Char) → List Char
  | [] => []
  | [p] => p
  | p :: ps => p ++ '\n' :: '\n' :: joinNN ps

/-- Input document: `{ name, text }` from `chunker.ts`. -/
structure DocumentInput where
  name : String
  text : List Char
deriving DecidableEq, Inhabited

/-- Chunk record from `bm25.ts` (`id`, `text`, `docIndex`, `docName`,
`startChar`). -/
structure Chunk where
  id : ℕ
  text : List Char
  docIndex : ℕ
  docName : String
  startChar : ℕ
deriving DecidableEq, Inhabited

/-- Raw character-fallback loop of `chunkDocuments`, fuel-based and fully
faithful to the source:

    let pos = 0;
    while (pos < para.length) {
      const slice = para.slice(pos, pos + chunkSize);
      ... push chunk ...
      pos += chunkSize - overlap;
    }

`pos` and the step are integers (`chunkSize - overlap` may be zero or
negative, in which case the loop never terminates); the result is `none`
when the given fuel does not suffice to reach `pos ≥ para.length`.  Each
produced pair is the window's start offset together with its text. -/
def charWindowsFuel (para : List Char) (cs ov : ℤ) (pos : ℤ) :
    ℕ → Option (List (ℤ × List Char))
  | 0 => none
  | fuel + 1 =>
    if pos < (para.length : ℤ) then
      match charWindowsFuel para cs ov (pos + (cs - ov)) fuel with
      | none => none
      | some ws => some ((pos, (para.drop pos.toNat).take cs.toNat) :: ws)
    else
      some []

/-- Terminating form of the character-fallback loop, used by the total
embedding of `chunkDocuments`.  It equals the raw loop whenever
`ov < cs` (theorem `charWindowsFuel_eq_charWindows`); for `ov ≥ cs` the
raw loop never terminates (the guard makes this version return `[]`
there, a case the total embedding is never claimed to model). -/
def charWindows (para : List Char) (cs ov : ℕ) (pos : ℕ) : List (ℕ × List Char) :=
  if h : pos < para.length ∧ ov < cs then
    (pos, (para.drop pos).take cs) :: charWindows para cs ov (pos + (cs - ov))
  else
    []
  termination_by para.length - pos
  decreasing_by omega

/-- Turn the windows of one oversized paragraph into chunk records, with
consecutive ids starting at `gid` and `startChar = charPos + pos`, in the
order the source loop pushes them. -/
def windowChunks (charPos dI : ℕ) (name : String) :
    List (ℕ × List Char) → ℕ → List Chunk
  | [], _ => []
  | (pos, slice) :: rest, gid =>
    ⟨gid, slice, dI, name, charPos + pos⟩ :: windowChunks charPos dI name rest (gid + 1)

/-- Paragraph-accumulation loop of `chunkDocuments` for one document.
State mirrors the source locals: `cur` is `currentChunk` (empty list for
the empty string), `curStart` is `currentStart`, `charPos` the running
offset, `gid` the global id counter.  Returns the chunks emitted for this
document (in push order) together with the final id counter. -/
def paraLoop (cs ov dI : ℕ) (name : String) :
    List (List Char) → List Char → ℕ → ℕ → ℕ → List Chunk × ℕ
  | [], cur, curStart, _, gid =>
    -- final flush: `if (currentChunk) chunks.push({...})`
    if cur.isEmpty then ([], gid) else ([⟨gid, cur, dI, name, curStart⟩], gid + 1)
  | para :: rest, cur, curStart, charPos, gid =>
    let candidate := if cur.isEmpty then para.length else cur.length + 2 + para.length
    if candidate ≤ cs then
      if cur.isEmpty then
        paraLoop cs ov dI name rest para charPos (charPos + para.length + 2) gid
      else
        paraLoop cs ov dI name rest (cur ++ '\n' :: '\n' :: para) curStart
          (charPos + para.length + 2) gid
    else
      let flushed : List Chunk :=
        if cur.isEmpty then [] else [⟨gid, cur, dI, name, curStart⟩]
      let gid1 := if cur.isEmpty then gid else gid + 1
      if cs < para.length then
        let ws := charWindows para cs ov 0
        let r := paraLoop cs ov dI name rest [] (charPos + para.length)
          (charPos + para.length + 2) (gid1 + ws.length)
        (flushed ++ windowChunks charPos dI name ws gid1 ++ r.1, r.2)
      else
        let r := paraLoop cs ov dI name rest para charPos
          (charPos + para.length + 2) gid1
        (flushed ++ r.1, r.2)

/-- Outer document loop of `chunkDocuments` (`docs.forEach(...)`),
threading the global id counter across documents. -/
def docLoop (cs ov : ℕ) : List DocumentInput → ℕ → ℕ → List Chunk
  | [], _, _ => []
  | doc :: rest, dI, gid =>
    let t := trimChars doc.text
    if t.isEmpty then
      docLoop cs ov rest (dI + 1) gid
    else
      let r := paraLoop cs ov dI doc.name (parasOf t) [] 0 0 gid
      r.1 ++ docLoop cs ov rest (dI + 1) r.2

/-- `chunkDocuments(docs, chunkSize, overlap)` from `chunker.ts`
(defaults `chunkSize = 400`, `overlap = 80` at call sites). -/
def chunkDocuments (docs : List DocumentInput) (cs ov : ℕ) : List Chunk :=
  docLoop cs ov docs 0 0

/-! ### BM25 scorer (`src/lib/bm25.ts`) -/

/-- One pass of the `tokenize` character replacement: lower-case, keep
`[a-z0-9]` and whitespace, map every other character to a space —
`text.toLowerCase().replace(/[^a-z0-9\s]/g, " ")`. -/
def normChar (c : Char) : Char :=
  let c := c.toLower
  if ('a' ≤ c && c ≤ 'z') || ('0' ≤ c && c ≤ '9') || isWs c then c else ' '

/-- Split on whitespace characters, mirroring `split(/\s+/)`.  Splitting
on single whitespace characters (instead of maximal runs) only introduces
additional empty parts, all of which the `length > 2` filter of
`tokenize` removes, so after that filter this agrees with the regex. -/
def splitWsAux (acc : List Char) : List Char → List (List Char)
  | [] => [acc.reverse]
  | c :: rest =>
    if isWs c then acc.reverse :: splitWsAux [] rest else splitWsAux (c :: acc) rest

/-- `tokenize` from `bm25.ts`: normalize characters, split on whitespace,
keep only tokens of length `> 2`. -/
def tokenize (text : List Char) : List (List Char) :=
  (splitWsAux [] (text.map normChar)).filter (fun t => decide (2 < t.length))

/-- First-occurrence deduplication, the semantics of
`[...new Set(tokens)]` applied to the query's token list. -/
def dedupFirst : List (List Char) → List (List Char)
  | [] => []
  | t :: rest => t :: dedupFirst (rest.filter (fun u => decide (u ≠ t)))
  termination_by l => l.length
  decreasing_by
    simpa using Nat.lt_succ_of_le (List.length_filter_le _ _)

/-- Document frequency of a term: the number of chunks whose token list
contains it (built in `buildIndex` via the `seenTerms` set). -/
def dfOf (chunks : List Chunk) (term : List Char) : ℕ :=
  chunks.countP (fun c => decide (term ∈ tokenize c.text))

/-- Average token count per chunk, `avgdl = totalLength / N` (real
division; `N > 0` on every path the source reaches it on). -/
noncomputable def avgdlOf (chunks : List Chunk) : ℝ :=
  ((chunks.map (fun c => (tokenize c.text).length)).sum : ℝ) / (chunks.length : ℝ)

/-- Smoothed IDF of the source:
`Math.log((N - termDf + 0.5) / (termDf + 0.5) + 1)` with float (here:
real) subtraction. -/
noncomputable def idfOf (N df : ℕ) : ℝ :=
  Real.log (((N : ℝ) - (df : ℝ) + 0.5) / ((df : ℝ) + 0.5) + 1)

/-- Length-normalized term frequency of the source:
`(termTf * (k1 + 1)) / (termTf + k1 * (1 - b + b * (docLengths[i] / avgdl)))`
with `k1 = 1.5`, `b = 0.75`. -/
noncomputable def tfNormOf (tf dl : ℕ) (avgdl : ℝ) : ℝ :=
  ((tf : ℝ) * (1.5 + 1)) / ((tf : ℝ) + 1.5 * (1 - 0.75 + 0.75 * ((dl : ℝ) / avgdl)))

/-- Score contribution of one query term to one chunk: zero when the term
is absent from the corpus (`if (termDf === 0) return;`), otherwise
`idf * tfNorm`. -/
noncomputable def termScore (chunks : List Chunk) (avgdl : ℝ)
    (toks : List (List Char)) (term : List Char) : ℝ :=
  let termTf := toks.count term
  let termDf := dfOf chunks term
  if termDf = 0 then 0 else idfOf chunks.length termDf * tfNormOf termTf toks.length avgdl

/-- Accumulated BM25 score of one chunk, the `score +=` fold over the
distinct query terms. -/
noncomputable def chunkScore (chunks : List Chunk) (queryTerms : List (List Char))
    (chunk : Chunk) : ℝ :=
  queryTerms.foldl
    (fun s term => s + termScore chunks (avgdlOf chunks) (tokenize chunk.text) term) 0

/-- The `matchedTerms` list pushed for one chunk: the distinct query
terms that are present in the corpus (`termDf ≠ 0`) and occur in this
chunk (`termTf > 0`), in query order. -/
def chunkMatches (chunks : List Chunk) (queryTerms : List (List Char))
    (chunk : Chunk) : List (List Char) :=
  queryTerms.filter
    (fun term => decide (dfOf chunks term ≠ 0 ∧ 0 < (tokenize chunk.text).count term))

/-- Scored chunk: `{ ...chunk, score, termMatches }`. -/
structure ScoredChunk extends Chunk where
  score : ℝ
  termMatches : List (List Char)

/-- The `scored` array of `bm25Search`: every chunk annotated with its
score and matched terms.  The index `i` of the source `map` is used only
to look up `tf[i]` and `docLengths[i]`, both functions of the chunk's own
text, so the map is index-free here. -/
noncomputable def scoredChunks (chunks : List Chunk) (query : List Char) :
    List ScoredChunk :=
  let queryTerms := dedupFirst (tokenize query)
  chunks.map (fun chunk =>
    { toChunk := chunk
      score := chunkScore chunks queryTerms chunk
      termMatches := chunkMatches chunks queryTerms chunk })

/-- Stable descending insertion by score, the effect of
`sort((a, b) => b.score - a.score)` (ties keep original order). -/
noncomputable def insertDesc (c : ScoredChunk) : List ScoredChunk → List ScoredChunk
  | [] => [c]
  | d :: rest => if d.score < c.score then c :: d :: rest else d :: insertDesc c rest

/-- Sort a scored-chunk list by descending score (stable). -/
noncomputable def sortDesc (l : List ScoredChunk) : List ScoredChunk :=
  l.foldr insertDesc []

/-- `bm25Search(chunks, query, topK)` from `bm25.ts`: early return on an
empty corpus, score all chunks, keep strictly positive scores, sort
descending, truncate to `topK`. -/
noncomputable def bm25Search (chunks : List Chunk) (query : List Char) (topK : ℕ) :
    List ScoredChunk :=
  if chunks.isEmpty then []
  else
    (sortDesc ((scoredChunks chunks query).filter (fun c => decide (0 < c.score)))).take topK

/-- Modelled from the spec (§4.2): the per-chunk BM25 score as the
closed-form sum, over the distinct query terms present in the corpus, of
`idf(t) * tf_norm(t, i)` with
`idf(t) = ln((N - df(t) + 0.5) / (df(t) + 0.5) + 1)` and
`tf_norm(t, i) = (freq(t,i) * (k1+1)) / (freq(t,i) + k1 * (1 - b + b * len(i)/avgdl))`,
`k1 = 1.5`, `b = 0.75`.  Stated against the code-side `chunkScore` by
theorem `claim_C3`. -/
noncomputable def bm25SpecScore (chunks : List Chunk) (query : List Char)
    (chunk : Chunk) : ℝ :=
  (((dedupFirst (tokenize query)).filter (fun t => decide (0 < dfOf chunks t))).map
    (fun t =>
      Real.log (((chunks.length : ℝ) - (dfOf chunks t : ℝ) + 0.5) /
          ((dfOf chunks t : ℝ) + 0.5) + 1) *
        (((tokenize chunk.text).count t : ℝ) * (1.5 + 1) /
          (((tokenize chunk.text).count t : ℝ) +
            1.5 * (1 - 0.75 + 0.75 * (((tokenize chunk.text).length : ℝ) /
              avgdlOf chunks)))))).sum

/-- Example chunk (`"cat food"`) used by the concrete search lemmas. -/
def exChunk : Chunk := ⟨0, ['c', 'a', 't', ' ', 'f', 'o', 'o', 'd'], 0, "a", 0⟩

/-- Example query (`"food"`) used by the concrete search lemmas. -/
def exQuery : List Char := ['f', 'o', 'o', 'd']

/-! ### Character-fallback loop: structure, termination, agreement -/

theorem charWindows_step (para : List Char) (cs ov pos : ℕ)
    (h1 : pos < para.length) (h2 : ov < cs) :
    charWindows para cs ov pos =
      (pos, (para.drop pos).take cs) :: charWindows para cs ov (pos + (cs - ov)) := by
  rw [charWindows]
  exact dif_pos ⟨h1, h2⟩

theorem charWindows_stop (para : List Char) (cs ov pos : ℕ)
    (h : ¬(pos < para.length ∧ ov < cs)) :
    charWindows para cs ov pos = [] := by
  rw [charWindows]
  exact dif_neg h

/-- Closed form of the character-fallback loop for a valid configuration:
starting from `pos`, it emits `⌈(length - pos) / step⌉` windows, the
`k`-th at offset `pos + k · step`, of text `para.slice` at that offset. -/
theorem charWindows_eq_map (para : List Char) (cs ov : ℕ) (hov : ov < cs) (pos : ℕ) :
    charWindows para cs ov pos =
      (List.range ((para.length - pos + (cs - ov) - 1) / (cs - ov))).map
        (fun k => (pos + k * (cs - ov), (para.drop (pos + k * (cs - ov))).take cs)) := by
  have hs : 0 < cs - ov := by omega
  have main : ∀ fuel pos, para.length - pos ≤ fuel →
      charWindows para cs ov pos =
        (List.range ((para.length - pos + (cs - ov) - 1) / (cs - ov))).map
          (fun k => (pos + k * (cs - ov), (para.drop (pos + k * (cs - ov))).take cs)) := by
    intro fuel
    induction fuel with
    | zero =>
      intro pos h
      have hp : ¬ pos < para.length := by omega
      have hc : (para.length - pos + (cs - ov) - 1) / (cs - ov) = 0 :=
        Nat.div_eq_of_lt (by omega)
      rw [charWindows_stop para cs ov pos (by tauto), hc]
      simp
    | succ fuel ih =>
      intro pos h
      by_cases hp : pos < para.length
      · have hcount : (para.length - pos + (cs - ov) - 1) / (cs - ov) =
            (para.length - (pos + (cs - ov)) + (cs - ov) - 1) / (cs - ov) + 1 := by
          have h1 : para.length - pos + (cs - ov) - 1 = (para.length - pos - 1) + (cs - ov) := by
            omega
          rw [h1, Nat.add_div_right _ hs]
          congr 1
          rcases le_or_lt (cs - ov) (para.length - pos) with h2 | h2
          · congr 1
            omega
          · rw [Nat.div_eq_of_lt (by omega), Nat.div_eq_of_lt (by omega)]
        rw [charWindows_step para cs ov pos hp hov, ih (pos + (cs - ov)) (by omega), hcount,
          List.range_succ_eq_map]
        simp only [List.map_cons, List.map_map, Nat.zero_mul, Nat.add_zero, List.cons.injEq,
          true_and]
        apply List.map_congr_left
        intro k _
        simp only [Function.comp_apply, Nat.succ_eq_add_one]
        rw [show pos + (cs - ov) + k * (cs - ov) = pos + (k + 1) * (cs - ov) by ring]
      · have hc : (para.length - pos + (cs - ov) - 1) / (cs - ov) = 0 :=
          Nat.div_eq_of_lt (by omega)
        rw [charWindows_stop para cs ov pos (by tauto), hc]
        simp
  exact main (para.length - pos) pos le_rfl

/-- The fuel-based raw loop agrees with the terminating embedding for
every valid configuration (`ov < cs`), given enough fuel. -/
theorem charWindowsFuel_eq_charWindows (para : List Char) (cs ov : ℕ) (hov : ov < cs) :
    ∀ (fuel : ℕ) (pos : ℕ), 0 < fuel → para.length < pos + fuel →
      charWindowsFuel para (cs : ℤ) (ov : ℤ) (pos : ℤ) fuel =
        some ((charWindows para cs ov pos).map (fun w => ((w.1 : ℤ), w.2))) := by
  intro fuel
  induction fuel with
  | zero => omega
  | succ fuel ih =>
    intro pos _ hlt
    by_cases hp : pos < para.length
    · have hfuel : 0 < fuel := by omega
      have hcast : (pos : ℤ) + ((cs : ℤ) - (ov : ℤ)) = ((pos + (cs - ov) : ℕ) : ℤ) := by
        push_cast [Nat.cast_sub (le_of_lt hov)]
        ring
      rw [charWindowsFuel, if_pos (by exact_mod_cast hp), hcast,
        ih (pos + (cs - ov)) hfuel (by omega),
        charWindows_step para cs ov pos hp hov]
      simp

    · rw [charWindowsFuel, if_neg (by exact_mod_cast hp),
        charWindows_stop para cs ov pos (by tauto)]
      simp

/-- Every window text is a `take cs` slice, hence at most `cs` long. -/
theorem charWindows_snd_length (para : List Char) (cs ov : ℕ) (hov : ov < cs) (pos : ℕ) :
    ∀ w ∈ charWindows para cs ov pos, w.2.length ≤ cs := by
  rw [charWindows_eq_map para cs ov hov pos]
  intro w hw
  simp only [List.mem_map, List.mem_range] at hw
  obtain ⟨k, -, rfl⟩ := hw
  simp [List.length_take]

/-- Number of windows over a whole paragraph:
`⌈length / (cs - ov)⌉ = (length + (cs - ov) - 1) / (cs - ov)`. -/
theorem charWindows_length (para : List Char) (cs ov : ℕ) (hov : ov < cs) :
    (charWindows para cs ov 0).length = (para.length + (cs - ov) - 1) / (cs - ov) := by
  rw [charWindows_eq_map para cs ov hov 0]
  simp

/-- Coverage of the fallback: the paragraph's tail from `pos` on is a
sublist (in order, nothing omitted) of the concatenated window texts. -/
theorem drop_sublist_flatten_charWindows (para : List Char) (cs ov : ℕ) (hov : ov < cs) :
    ∀ pos, List.Sublist (para.drop pos) ((charWindows para cs ov pos).map Prod.snd).flatten := by
  have hs : 0 < cs - ov := by omega
  have main : ∀ fuel pos, para.length - pos ≤ fuel →
      List.Sublist (para.drop pos) ((charWindows para cs ov pos).map Prod.snd).flatten := by
    intro fuel
    induction fuel with
    | zero =>
      intro pos h
      have : para.drop pos = [] := List.drop_eq_nil_of_le (by omega)
      rw [this]
      exact List.nil_sublist _
    | succ fuel ih =>
      intro pos h
      by_cases hp : pos < para.length
      · rw [charWindows_step para cs ov pos hp hov]
        simp only [List.map_cons, List.flatten_cons]
        have hsplit : para.drop pos =
            (para.drop pos).take (cs - ov) ++ para.drop (pos + (cs - ov)) := by
          rw [show para.drop (pos + (cs - ov)) = ((para.drop pos).drop (cs - ov)) by
            rw [List.drop_drop]]
          exact (List.take_append_drop _ _).symm
        have h1 : List.Sublist ((para.drop pos).take (cs - ov)) ((para.drop pos).take cs) := by
          have heq : ((para.drop pos).take cs).take (cs - ov) = (para.drop pos).take (cs - ov) := by
            rw [List.take_take, min_eq_left (by omega)]
          rw [← heq]
          exact List.take_sublist _ _
        have h3 := h1.append (ih (pos + (cs - ov)) (by omega))
        rw [← hsplit] at h3
        exact h3
      · have : para.drop pos = [] := List.drop_eq_nil_of_le (by omega)
        rw [this]
        exact List.nil_sublist _
  intro pos
  exact main (para.length - pos) pos le_rfl

/-! ### Whitespace, trimming and paragraph splitting -/

theorem filter_not_dropWhile {α : Type} (p : α → Bool) (l : List α) :
    (l.dropWhile p).filter (fun c => !p c) = l.filter (fun c => !p c) := by
  induction l with
  | nil => rfl
  | cons c rest ih =>
    by_cases hc : p c
    · rw [List.dropWhile_cons_of_pos hc, ih, List.filter_cons_of_neg (by simp [hc])]
    · rw [List.dropWhile_cons_of_neg hc]

theorem filter_flatten {α : Type} (p : α → Bool) (l : List (List α)) :
    (l.flatten).filter p = (l.map (List.filter p)).flatten := by
  induction l with
  | nil => rfl
  | cons x xs ih => simp [List.filter_append, ih]

theorem trimChars_sublist (l : List Char) : List.Sublist (trimChars l) l := by
  unfold trimChars
  have h1 : List.Sublist (((l.dropWhile isWs).reverse.dropWhile isWs).reverse)
      ((l.dropWhile isWs).reverse.reverse) := (List.dropWhile_sublist _).reverse
  rw [List.reverse_reverse] at h1
  exact h1.trans (List.dropWhile_sublist _)

theorem trimChars_filter (l : List Char) :
    (trimChars l).filter (fun c => !isWs c) = l.filter (fun c => !isWs c) := by
  unfold trimChars
  rw [List.filter_reverse, filter_not_dropWhile, List.filter_reverse, List.reverse_reverse,
    filter_not_dropWhile]

theorem filter_eq_nil_of_trimChars_eq_nil (l : List Char) (h : trimChars l = []) :
    l.filter (fun c => !isWs c) = [] := by
  rw [← trimChars_filter, h]
  rfl

/-- Newline runs dropped between paragraphs contain no non-whitespace. -/
theorem filter_not_isWs_dropWhile_nl (l : List Char) :
    (l.dropWhile (fun c => decide (c = '\n'))).filter (fun c => !isWs c) =
      l.filter (fun c => !isWs c) := by
  induction l with
  | nil => rfl
  | cons c rest ih =>
    by_cases hc : c = '\n'
    · subst hc
      rw [List.dropWhile_cons_of_pos (by simp), ih,
        List.filter_cons_of_neg (by simp [isWs])]
    · rw [List.dropWhile_cons_of_neg (by simp [hc])]

/-- Splitting on double newlines loses no non-whitespace character: the
concatenated parts filter to the same non-whitespace characters as the
input (the separators are all newlines). -/
theorem splitNN_flatten_filter :
    ∀ (acc l : List Char),
      ((splitNN acc l).flatten).filter (fun c => !isWs c) =
        (acc.reverse ++ l).filter (fun c => !isWs c) := by
  intro acc l
  induction acc, l using splitNN.induct with
  | case1 acc => simp [splitNN.eq_1]
  | case2 acc rest ih =>
    rw [splitNN.eq_2]
    simp only [List.flatten_cons, List.filter_append, ih, List.reverse_nil, List.nil_append]
    rw [filter_not_isWs_dropWhile_nl]
    have hnl : (['\n', '\n'] ++ rest).filter (fun c => !isWs c) =
        rest.filter (fun c => !isWs c) := by
      simp [isWs]
    simpa [List.filter_append] using congrArg (fun x => (acc.reverse).filter (fun c => !isWs c) ++ x) hnl.symm
  | case3 acc c rest hne ih =>
    rw [splitNN.eq_3 acc c rest hne, ih]
    simp [List.filter_append]

/-! ### The double-newline join of the accumulation buffer -/

theorem joinNN_cons (p : List Char) (ps : List (List Char)) (h : ps ≠ []) :
    joinNN (p :: ps) = p ++ '\n' :: '\n' :: joinNN ps := by
  cases ps with
  | nil => exact absurd rfl h
  | cons q qs => rfl

theorem joinNN_append (xs ys : List (List Char)) (hx : xs ≠ []) (hy : ys ≠ []) :
    joinNN (xs ++ ys) = joinNN xs ++ '\n' :: '\n' :: joinNN ys := by
  induction xs with
  | nil => exact absurd rfl hx
  | cons x xs ih =>
    cases xs with
    | nil =>
      rw [List.singleton_append, joinNN_cons x ys hy]
      rfl
    | cons x2 xs2 =>
      rw [List.cons_append, joinNN_cons x (x2 :: xs2 ++ ys) (by simp),
        joinNN_cons x (x2 :: xs2) (by simp), ih (by simp)]
      simp

theorem joinNN_sublist_append_left (xs ys : List (List Char)) :
    List.Sublist (joinNN xs) (joinNN (xs ++ ys)) := by
  rcases eq_or_ne xs [] with rfl | hx
  · exact List.nil_sublist _
  rcases eq_or_ne ys [] with rfl | hy
  · rw [List.append_nil]
  rw [joinNN_append xs ys hx hy]
  exact List.sublist_append_left _ _

theorem joinNN_sublist_append_right (xs ys : List (List Char)) :
    List.Sublist (joinNN ys) (joinNN (xs ++ ys)) := by
  rcases eq_or_ne xs [] with rfl | hx
  · rw [List.nil_append]
  rcases eq_or_ne ys [] with rfl | hy
  · exact List.nil_sublist _
  rw [joinNN_append xs ys hx hy]
  refine List.Sublist.trans ?_ (List.sublist_append_right (joinNN xs) _)
  exact (List.sublist_cons_self _ _).trans (List.sublist_cons_self _ _)

theorem joinNN_sublist_of_infix (pre mid suf : List (List Char)) :
    List.Sublist (joinNN mid) (joinNN (pre ++ mid ++ suf)) := by
  rw [List.append_assoc]
  exact (joinNN_sublist_append_left mid suf).trans (joinNN_sublist_append_right pre _)

theorem sublist_joinNN_of_mem (p : List Char) (ps : List (List Char)) (h : p ∈ ps) :
    List.Sublist p (joinNN ps) := by
  obtain ⟨s, t, rfl⟩ := List.append_of_mem h
  have := joinNN_sublist_of_infix s [p] t
  simpa [joinNN] using this

/-- The trimmed, non-empty paragraphs joined back with double newlines
form a sublist of the text they were split from. -/
theorem joinNN_filterTrim_splitNN :
    ∀ (acc l : List Char),
      List.Sublist
        (joinNN (((splitNN acc l).map trimChars).filter (fun p => !p.isEmpty)))
        (acc.reverse ++ l) := by
  intro acc l
  induction acc, l using splitNN.induct with
  | case1 acc =>
    rw [splitNN.eq_1]
    by_cases he : (trimChars acc.reverse).isEmpty
    · simp [he, joinNN]
    · simp only [List.map_cons, List.map_nil, List.filter_cons, he, Bool.not_false,
        List.filter_nil, List.append_nil]
      simpa [joinNN] using trimChars_sublist acc.reverse
  | case2 acc rest ih =>
    rw [splitNN.eq_2]
    have hrest : List.Sublist (List.dropWhile (fun x => decide (x = '\n')) rest) rest :=
      List.dropWhile_sublist _
    simp only [List.reverse_nil, List.nil_append] at ih
    by_cases he : (trimChars acc.reverse).isEmpty
    · simp only [List.map_cons, List.filter_cons, he, Bool.not_true]
      exact (ih.trans hrest).trans
        (((List.sublist_cons_self _ _).trans (List.sublist_cons_self _ _)).trans
          (List.sublist_append_right acc.reverse _))
    · simp only [List.map_cons, List.filter_cons, he, Bool.not_false, if_true]
      rcases hfs : ((splitNN [] (List.dropWhile (fun x => decide (x = '\n')) rest)).map
          trimChars).filter (fun p => !p.isEmpty) with - | ⟨f, fs⟩
      · rw [hfs, joinNN.eq_2]
        exact ((trimChars_sublist acc.reverse).trans (List.sublist_append_left _ _))
      · rw [hfs, joinNN_cons _ _ (by simp)]
        rw [hfs] at ih
        exact (trimChars_sublist acc.reverse).append
          (((ih.trans hrest).cons₂ '\n').cons₂ '\n')
  | case3 acc c rest hne ih =>
    rw [splitNN.eq_3 acc c rest hne]
    have := ih
    rw [List.reverse_cons, List.append_assoc, List.singleton_append] at this
    exact this

/-- Specialisation: the paragraphs of a text, rejoined, are a sublist of
the text. -/
theorem joinNN_parasOf_sublist (t : List Char) :
    List.Sublist (joinNN (parasOf t)) t := by
  unfold parasOf
  simpa using joinNN_filterTrim_splitNN [] t

theorem flatten_map_filter_of_nil {α : Type} (f : List α → List α) (q : List α → Bool)
    (ps : List (List α)) (h : ∀ p ∈ ps, ¬ q p = true → f p = []) :
    ((ps.filter q).map f).flatten = (ps.map f).flatten := by
  induction ps with
  | nil => rfl
  | cons p rest ih =>
    by_cases hq : q p
    · rw [List.filter_cons_of_pos hq]
      simp only [List.map_cons, List.flatten_cons]
      rw [ih (fun x hx hnx => h x (List.mem_cons_of_mem p hx) hnx)]
    · rw [List.filter_cons_of_neg (by simpa using hq)]
      simp only [List.map_cons, List.flatten_cons, h p (List.mem_cons_self p rest) hq,
        List.nil_append]
      exact ih (fun x hx hnx => h x (List.mem_cons_of_mem p hx) hnx)

/-- No non-whitespace character of the text is lost by paragraph
splitting: the concatenated paragraphs carry exactly the non-whitespace
characters of the original text, in order. -/
theorem filter_flatten_parasOf (t : List Char) :
    ((parasOf t).flatten).filter (fun c => !isWs c) = t.filter (fun c => !isWs c) := by
  unfold parasOf
  rw [filter_flatten]
  rw [flatten_map_filter_of_nil (List.filter (fun c => !isWs c)) (fun p => !p.isEmpty) _
    (by
      intro p hp hq
      have : p = [] := by
        simpa [List.isEmpty_iff] using hq
      rw [this]
      rfl)]
  rw [List.map_map]
  have hmap : ((splitNN [] t).map ((List.filter (fun c => !isWs c)) ∘ trimChars)) =
      ((splitNN [] t).map (List.filter (fun c => !isWs c))) := by
    apply List.map_congr_left
    intro p _
    exact trimChars_filter p
  rw [hmap, ← filter_flatten]
  simpa using splitNN_flatten_filter [] t

/-! ### Chunk emission: ids, fields, sizes, coverage -/

theorem range'_append_one (s m n : ℕ) :
    List.range' s m ++ List.range' (s + m) n = List.range' s (m + n) := by
  rw [show m + n = n + m from Nat.add_comm m n]
  simpa using List.range'_append s m n 1

theorem windowChunks_length (charPos dI : ℕ) (name : String) :
    ∀ (ws : List (ℕ × List Char)) (gid : ℕ),
      (windowChunks charPos dI name ws gid).length = ws.length := by
  intro ws
  induction ws with
  | nil => intro gid; rfl
  | cons w rest ih =>
    intro gid
    cases w with
    | mk pos slice => simp [windowChunks, ih]

theorem windowChunks_map_id (charPos dI : ℕ) (name : String) :
    ∀ (ws : List (ℕ × List Char)) (gid : ℕ),
      (windowChunks charPos dI name ws gid).map Chunk.id =
        List.range' gid ws.length := by
  intro ws
  induction ws with
  | nil => intro gid; rfl
  | cons w rest ih =>
    intro gid
    cases w with
    | mk pos slice => simp [windowChunks, ih, List.range'_succ]

theorem windowChunks_mem (charPos dI : ℕ) (name : String) :
    ∀ (ws : List (ℕ × List Char)) (gid : ℕ) (c : Chunk),
      c ∈ windowChunks charPos dI name ws gid →
        (∃ w ∈ ws, c.text = w.2) ∧ c.docIndex = dI ∧ c.docName = name := by
  intro ws
  induction ws with
  | nil => intro gid c hc; cases hc
  | cons w rest ih =>
    intro gid c hc
    cases w with
    | mk pos slice =>
      cases hc with
      | head => exact ⟨⟨(pos, slice), List.mem_cons_self _ _, rfl⟩, rfl, rfl⟩
      | tail _ hc =>
        obtain ⟨⟨w, hw, hwt⟩, h1, h2⟩ := ih (gid + 1) c hc
        exact ⟨⟨w, List.mem_cons_of_mem _ hw, hwt⟩, h1, h2⟩

theorem windowChunks_map_text (charPos dI : ℕ) (name : String) :
    ∀ (ws : List (ℕ × List Char)) (gid : ℕ),
      (windowChunks charPos dI name ws gid).map Chunk.text = ws.map Prod.snd := by
  intro ws
  induction ws with
  | nil => intro gid; rfl
  | cons w rest ih =>
    intro gid
    cases w with
    | mk pos slice => simp [windowChunks, ih]

/-- The paragraph loop returns `gid + number of emitted chunks` as its
final id counter. -/
theorem paraLoop_snd (cs ov dI : ℕ) (name : String) :
    ∀ (paras : List (List Char)) (cur : List Char) (curStart charPos gid : ℕ),
      (paraLoop cs ov dI name paras cur curStart charPos gid).2 =
        gid + (paraLoop cs ov dI name paras cur curStart charPos gid).1.length := by
  intro paras
  induction paras with
  | nil =>
    intro cur curStart charPos gid
    by_cases hc : cur.isEmpty <;> simp [paraLoop, hc]
  | cons para rest ih =>
    intro cur curStart charPos gid
    simp only [paraLoop]
    by_cases h1 : (if cur.isEmpty then para.length else cur.length + 2 + para.length) ≤ cs
    · rw [if_pos h1]
      by_cases hc : cur.isEmpty
      · simp only [if_pos hc]
        exact ih para charPos (charPos + para.length + 2) gid
      · simp only [if_neg hc]
        exact ih (cur ++ '\n' :: '\n' :: para) curStart (charPos + para.length + 2) gid
    · rw [if_neg h1]
      by_cases h2 : cs < para.length
      · rw [if_pos h2]
        by_cases hc : cur.isEmpty
        · simp only [if_pos hc, List.nil_append]
          rw [ih]
          simp only [List.length_append, windowChunks_length]
          omega
        · simp only [if_neg hc]
          rw [ih]
          simp only [List.length_append, windowChunks_length, List.length_cons,
            List.length_nil]
          omega
      · rw [if_neg h2]
        by_cases hc : cur.isEmpty
        · simp only [if_pos hc]
          exact ih para charPos (charPos + para.length + 2) gid
        · simp only [if_neg hc]
          rw [ih]
          simp only [List.length_append, List.length_cons, List.length_nil]
          omega

/-- The chunks emitted by the paragraph loop carry consecutive ids
starting at `gid`. -/
theorem paraLoop_map_id (cs ov dI : ℕ) (name : String) :
    ∀ (paras : List (List Char)) (cur : List Char) (curStart charPos gid : ℕ),
      (paraLoop cs ov dI name paras cur curStart charPos gid).1.map Chunk.id =
        List.range' gid (paraLoop cs ov dI name paras cur curStart charPos gid).1.length := by
  intro paras
  induction paras with
  | nil =>
    intro cur curStart charPos gid
    by_cases hc : cur.isEmpty <;> simp [paraLoop, hc]
  | cons para rest ih =>
    intro cur curStart charPos gid
    simp only [paraLoop]
    by_cases h1 : (if cur.isEmpty then para.length else cur.length + 2 + para.length) ≤ cs
    · rw [if_pos h1]
      by_cases hc : cur.isEmpty
      · simp only [if_pos hc]
        exact ih para charPos (charPos + para.length + 2) gid
      · simp only [if_neg hc]
        exact ih (cur ++ '\n' :: '\n' :: para) curStart (charPos + para.length + 2) gid
    · rw [if_neg h1]
      by_cases h2 : cs < para.length
      · rw [if_pos h2]
        by_cases hc : cur.isEmpty
        · simp only [if_pos hc, List.nil_append]
          rw [List.map_append, windowChunks_map_id, ih, List.length_append,
            windowChunks_length]
          exact range'_append_one gid _ _
        · simp only [if_neg hc]
          rw [List.map_append, List.map_append, windowChunks_map_id, ih]
          simp only [List.map_cons, List.map_nil, List.length_append, List.length_cons,
            List.length_nil, windowChunks_length]
          rw [List.append_assoc, range'_append_one (gid + 1) _ _,
            show ([gid] : List ℕ) = List.range' gid 1 from rfl,
            range'_append_one gid 1 _]
          congr 1
          omega
      · rw [if_neg h2]
        by_cases hc : cur.isEmpty
        · simp only [if_pos hc]
          exact ih para charPos (charPos + para.length + 2) gid
        · simp only [if_neg hc]
          rw [List.map_append, ih]
          simp only [List.map_cons, List.map_nil, List.length_append, List.length_cons,
            List.length_nil]
          rw [show ([gid] : List ℕ) = List.range' gid 1 from rfl,
            range'_append_one gid 1 _]

/-- Window texts are at most `cs` long for every configuration (for
`ov ≥ cs` the terminating embedding emits no windows at all). -/
theorem charWindows_snd_length' (para : List Char) (cs ov pos : ℕ) :
    ∀ w ∈ charWindows para cs ov pos, w.2.length ≤ cs := by
  by_cases hov : ov < cs
  · exact charWindows_snd_length para cs ov hov pos
  · rw [charWindows_stop para cs ov pos (by tauto)]
    intro w hw
    cases hw

/-- Every chunk emitted by the paragraph loop belongs to document `dI`
and carries its name. -/
theorem paraLoop_fields (cs ov dI : ℕ) (name : String) :
    ∀ (paras : List (List Char)) (cur : List Char) (curStart charPos gid : ℕ) (c : Chunk),
      c ∈ (paraLoop cs ov dI name paras cur curStart charPos gid).1 →
        c.docIndex = dI ∧ c.docName = name := by
  intro paras
  induction paras with
  | nil =>
    intro cur curStart charPos gid c hc
    by_cases h : cur.isEmpty
    · simp [paraLoop, h] at hc
    · simp only [paraLoop, if_neg h, List.mem_singleton] at hc
      subst hc
      exact ⟨rfl, rfl⟩
  | cons para rest ih =>
    intro cur curStart charPos gid c hc
    simp only [paraLoop] at hc
    by_cases h1 : (if cur.isEmpty then para.length else cur.length + 2 + para.length) ≤ cs
    · rw [if_pos h1] at hc
      by_cases h : cur.isEmpty
      · rw [if_pos h] at hc
        exact ih para charPos (charPos + para.length + 2) gid c hc
      · rw [if_neg h] at hc
        exact ih (cur ++ '\n' :: '\n' :: para) curStart (charPos + para.length + 2) gid c hc
    · rw [if_neg h1] at hc
      by_cases h2 : cs < para.length
      · rw [if_pos h2] at hc
        by_cases h : cur.isEmpty
        · simp only [if_pos h, List.nil_append, List.mem_append] at hc
          rcases hc with hc | hc
          · obtain ⟨-, h1, h2⟩ := windowChunks_mem charPos dI name _ _ c hc
            exact ⟨h1, h2⟩
          · exact ih _ _ _ _ c hc
        · simp only [if_neg h, List.mem_append, List.mem_singleton] at hc
          rcases hc with (hc | hc) | hc
          · subst hc
            exact ⟨rfl, rfl⟩
          · obtain ⟨-, h1, h2⟩ := windowChunks_mem charPos dI name _ _ c hc
            exact ⟨h1, h2⟩
          · exact ih _ _ _ _ c hc
      · rw [if_neg h2] at hc
        by_cases h : cur.isEmpty
        · simp only [if_pos h, List.nil_append] at hc
          exact ih para charPos (charPos + para.length + 2) gid c hc
        · simp only [if_neg h, List.mem_append, List.mem_singleton] at hc
          rcases hc with hc | hc
          · subst hc
            exact ⟨rfl, rfl⟩
          · exact ih _ _ _ _ c hc

/-- Chunk-size bound: if the running buffer respects the bound, every
emitted chunk text has length at most `cs`. -/
theorem paraLoop_size (cs ov dI : ℕ) (name : String) :
    ∀ (paras : List (List Char)) (cur : List Char) (curStart charPos gid : ℕ),
      cur.length ≤ cs →
      ∀ c ∈ (paraLoop cs ov dI name paras cur curStart charPos gid).1,
        c.text.length ≤ cs := by
  intro paras
  induction paras with
  | nil =>
    intro cur curStart charPos gid hcur c hc
    by_cases h : cur.isEmpty
    · simp [paraLoop, h] at hc
    · simp only [paraLoop, if_neg h, List.mem_singleton] at hc
      subst hc
      exact hcur
  | cons para rest ih =>
    intro cur curStart charPos gid hcur c hc
    simp only [paraLoop] at hc
    by_cases h1 : (if cur.isEmpty then para.length else cur.length + 2 + para.length) ≤ cs
    · rw [if_pos h1] at hc
      by_cases h : cur.isEmpty
      · rw [if_pos h] at hc
        rw [if_pos h] at h1
        exact ih para charPos (charPos + para.length + 2) gid h1 c hc
      · rw [if_neg h] at hc
        rw [if_neg h] at h1
        refine ih (cur ++ '\n' :: '\n' :: para) curStart (charPos + para.length + 2) gid
          ?_ c hc
        simp only [List.length_append, List.length_cons]
        omega
    · rw [if_neg h1] at hc
      by_cases h2 : cs < para.length
      · rw [if_pos h2] at hc
        by_cases h : cur.isEmpty
        · simp only [if_pos h, List.nil_append, List.mem_append] at hc
          rcases hc with hc | hc
          · obtain ⟨⟨w, hw, hwt⟩, -, -⟩ := windowChunks_mem charPos dI name _ _ c hc
            rw [hwt]
            exact charWindows_snd_length' para cs ov 0 w hw
          · exact ih _ _ _ _ (by simp) c hc
        · simp only [if_neg h, List.mem_append, List.mem_singleton] at hc
          rcases hc with (hc | hc) | hc
          · subst hc
            exact hcur
          · obtain ⟨⟨w, hw, hwt⟩, -, -⟩ := windowChunks_mem charPos dI name _ _ c hc
            rw [hwt]
            exact charWindows_snd_length' para cs ov 0 w hw
          · exact ih _ _ _ _ (by simp) c hc
      · rw [if_neg h2] at hc
        by_cases h : cur.isEmpty
        · simp only [if_pos h, List.nil_append] at hc
          exact ih para charPos (charPos + para.length + 2) gid (by omega) c hc
        · simp only [if_neg h, List.mem_append, List.mem_singleton] at hc
          rcases hc with hc | hc
          · subst hc
            exact hcur
          · exact ih _ _ _ _ (by omega) c hc

/-- Window texts are slices of their paragraph. -/
theorem charWindows_snd_sublist (para : List Char) (cs ov pos : ℕ) :
    ∀ w ∈ charWindows para cs ov pos, List.Sublist w.2 para := by
  by_cases hov : ov < cs
  · rw [charWindows_eq_map para cs ov hov pos]
    intro w hw
    simp only [List.mem_map, List.mem_range] at hw
    obtain ⟨k, -, rfl⟩ := hw
    exact ((List.take_sublist _ _).trans (List.drop_sublist _ _))
  · rw [charWindows_stop para cs ov pos (by tauto)]
    intro w hw
    cases hw

/-- Every chunk text the paragraph loop emits is a sublist of the
document text `T`, provided the buffer is the double-newline join of a
paragraph block and the pending block-plus-paragraphs rejoin into a
sublist of `T`. -/
theorem paraLoop_text_sublist (cs ov dI : ℕ) (name : String) (T : List Char) :
    ∀ (paras : List (List Char)) (mid : List (List Char)) (cur : List Char)
      (curStart charPos gid : ℕ),
      (∀ p ∈ paras, p ≠ []) →
      cur = joinNN mid →
      (cur.isEmpty → mid = []) →
      List.Sublist (joinNN (mid ++ paras)) T →
      ∀ c ∈ (paraLoop cs ov dI name paras cur curStart charPos gid).1,
        List.Sublist c.text T := by
  intro paras
  induction paras with
  | nil =>
    intro mid cur curStart charPos gid hne hcur hmid hsub c hc
    by_cases h : cur.isEmpty
    · simp [paraLoop, h] at hc
    · simp only [paraLoop, if_neg h, List.mem_singleton] at hc
      subst hc
      rw [hcur]
      rw [List.append_nil] at hsub
      exact hsub
  | cons para rest ih =>
    intro mid cur curStart charPos gid hne hcur hmid hsub c hc
    have hpara : para ≠ [] := hne para (List.mem_cons_self _ _)
    have hne' : ∀ p ∈ rest, p ≠ [] := fun p hp => hne p (List.mem_cons_of_mem _ hp)
    simp only [paraLoop] at hc
    by_cases h1 : (if cur.isEmpty then para.length else cur.length + 2 + para.length) ≤ cs
    · rw [if_pos h1] at hc
      by_cases h : cur.isEmpty
      · rw [if_pos h] at hc
        have hmide : mid = [] := hmid h
        refine ih [para] para charPos (charPos + para.length + 2) gid hne' rfl ?_ ?_ c hc
        · intro hp
          exact absurd (by simpa [List.isEmpty_iff] using hp) hpara
        · subst hmide
          simpa using hsub
      · rw [if_neg h] at hc
        have hmidne : mid ≠ [] := by
          intro hm
          rw [hm] at hcur
          simp [hcur, joinNN] at h
        refine ih (mid ++ [para]) (cur ++ '\n' :: '\n' :: para) curStart
          (charPos + para.length + 2) gid hne' ?_ ?_ ?_ c hc
        · rw [joinNN_append mid [para] hmidne (by simp), joinNN.eq_2, hcur]
        · intro hp
          simp [List.isEmpty_iff] at hp
        · rw [List.append_assoc]
          simpa using hsub
    · rw [if_neg h1] at hc
      have hflush : List.Sublist cur T := by
        rw [hcur]
        exact (joinNN_sublist_append_left mid (para :: rest)).trans hsub
      have hparaT : List.Sublist para T :=
        (sublist_joinNN_of_mem para (mid ++ para :: rest) (by simp)).trans hsub
      have hrestT : List.Sublist (joinNN rest) T := by
        refine List.Sublist.trans ?_ hsub
        rw [show mid ++ para :: rest = (mid ++ [para]) ++ rest by simp]
        exact joinNN_sublist_append_right (mid ++ [para]) rest
      by_cases h2 : cs < para.length
      · rw [if_pos h2] at hc
        by_cases h : cur.isEmpty
        · simp only [if_pos h, List.nil_append, List.mem_append] at hc
          rcases hc with hc | hc
          · obtain ⟨⟨w, hw, hwt⟩, -, -⟩ := windowChunks_mem charPos dI name _ _ c hc
            rw [hwt]
            exact (charWindows_snd_sublist para cs ov 0 w hw).trans hparaT
          · exact ih [] [] (charPos + para.length) (charPos + para.length + 2) _ hne'
              rfl (fun _ => rfl) (by simpa using hrestT) c hc
        · simp only [if_neg h, List.mem_append, List.mem_singleton] at hc
          rcases hc with (hc | hc) | hc
          · subst hc
            exact hflush
          · obtain ⟨⟨w, hw, hwt⟩, -, -⟩ := windowChunks_mem charPos dI name _ _ c hc
            rw [hwt]
            exact (charWindows_snd_sublist para cs ov 0 w hw).trans hparaT
          · exact ih [] [] (charPos + para.length) (charPos + para.length + 2) _ hne'
              rfl (fun _ => rfl) (by simpa using hrestT) c hc
      · rw [if_neg h2] at hc
        have hnext : List.Sublist (joinNN ([para] ++ rest)) T :=
          (joinNN_sublist_append_right mid (para :: rest)).trans hsub
        by_cases h : cur.isEmpty
        · simp only [if_pos h, List.nil_append] at hc
          refine ih [para] para charPos (charPos + para.length + 2) gid hne' rfl ?_
            (by simpa using hnext) c hc
          intro hp
          exact absurd (by simpa [List.isEmpty_iff] using hp) hpara
        · simp only [if_neg h, List.mem_append, List.mem_singleton] at hc
          rcases hc with hc | hc
          · subst hc
            exact hflush
          · refine ih [para] para charPos (charPos + para.length + 2) _ hne' rfl ?_
              (by simpa using hnext) c hc
            intro hp
            exact absurd (by simpa [List.isEmpty_iff] using hp) hpara

/-- Coverage: the buffer followed by all pending paragraph text is a
sublist of the concatenated texts of the chunks the loop emits — nothing
is dropped, and order is preserved. -/
theorem paraLoop_cover (cs ov dI : ℕ) (name : String) (hov : ov < cs) :
    ∀ (paras : List (List Char)) (cur : List Char) (curStart charPos gid : ℕ),
      List.Sublist (cur ++ paras.flatten)
        (((paraLoop cs ov dI name paras cur curStart charPos gid).1.map Chunk.text).flatten) := by
  intro paras
  induction paras with
  | nil =>
    intro cur curStart charPos gid
    by_cases h : cur.isEmpty
    · have : cur = [] := by simpa [List.isEmpty_iff] using h
      simp [paraLoop, h, this]
    · simp only [paraLoop, if_neg h, List.flatten_nil, List.append_nil, List.map_cons,
        List.map_nil, List.flatten_cons]
      simp
  | cons para rest ih =>
    intro cur curStart charPos gid
    simp only [paraLoop, List.flatten_cons]
    by_cases h1 : (if cur.isEmpty then para.length else cur.length + 2 + para.length) ≤ cs
    · rw [if_pos h1]
      by_cases h : cur.isEmpty
      · rw [if_pos h]
        have hce : cur = [] := by simpa [List.isEmpty_iff] using h
        rw [hce, List.nil_append]
        exact ih para charPos (charPos + para.length + 2) gid
      · rw [if_neg h]
        refine List.Sublist.trans ?_ (ih (cur ++ '\n' :: '\n' :: para) curStart
          (charPos + para.length + 2) gid)
        have key : List.Sublist (cur ++ (para ++ rest.flatten))
            (cur ++ ('\n' :: '\n' :: (para ++ rest.flatten))) :=
          List.Sublist.append_left
            ((List.sublist_cons_self '\n' _).trans (List.sublist_cons_self '\n' _)) cur
        simpa [List.append_assoc] using key
    · rw [if_neg h1]
      by_cases h2 : cs < para.length
      · rw [if_pos h2]
        have hwin : ∀ g : ℕ, List.Sublist para
            (((windowChunks charPos dI name (charWindows para cs ov 0) g).map Chunk.text).flatten) := by
          intro g
          rw [windowChunks_map_text]
          simpa using drop_sublist_flatten_charWindows para cs ov hov 0
        by_cases h : cur.isEmpty
        · simp only [if_pos h, List.nil_append, List.map_append, List.flatten_append]
          have hce : cur = [] := by simpa [List.isEmpty_iff] using h
          rw [hce, List.nil_append]
          have := ih [] (charPos + para.length) (charPos + para.length + 2)
            (gid + (charWindows para cs ov 0).length)
          rw [List.nil_append] at this
          exact (hwin _).append this
        · simp only [if_neg h, List.map_append, List.flatten_append, List.map_cons,
            List.map_nil, List.flatten_cons, List.flatten_nil, List.append_nil]
          have := ih [] (charPos + para.length) (charPos + para.length + 2)
            (gid + 1 + (charWindows para cs ov 0).length)
          rw [List.nil_append] at this
          simpa [List.append_assoc] using (List.Sublist.refl cur).append ((hwin _).append this)
      · rw [if_neg h2]
        by_cases h : cur.isEmpty
        · simp only [if_pos h, List.nil_append]
          have hce : cur = [] := by simpa [List.isEmpty_iff] using h
          rw [hce, List.nil_append]
          exact ih para charPos (charPos + para.length + 2) gid
        · simp only [if_neg h, List.map_append, List.flatten_append, List.map_cons,
            List.map_nil, List.flatten_cons, List.flatten_nil, List.append_nil]
          simpa [List.append_assoc] using
            (List.Sublist.refl cur).append (ih para charPos (charPos + para.length + 2) (gid + 1))

theorem parasOf_ne_nil (t : List Char) : ∀ p ∈ parasOf t, p ≠ [] := by
  intro p hp
  unfold parasOf at hp
  have := (List.mem_filter.mp hp).2
  intro h
  rw [h] at this
  simp at this

/-- Ids across the document loop: consecutive from `gid`. -/
theorem docLoop_map_id (cs ov : ℕ) :
    ∀ (docs : List DocumentInput) (dI gid : ℕ),
      (docLoop cs ov docs dI gid).map Chunk.id =
        List.range' gid (docLoop cs ov docs dI gid).length := by
  intro docs
  induction docs with
  | nil => intro dI gid; rfl
  | cons doc rest ih =>
    intro dI gid
    simp only [docLoop]
    by_cases ht : (trimChars doc.text).isEmpty
    · rw [if_pos ht]
      exact ih (dI + 1) gid
    · rw [if_neg ht]
      rw [List.map_append, paraLoop_map_id, ih, List.length_append,
        paraLoop_snd cs ov dI doc.name (parasOf (trimChars doc.text)) [] 0 0 gid]
      exact range'_append_one gid _ _

/-- Field invariants across the document loop: every chunk's `docIndex`
points into the pending document list, its `docName` is that document's
name, and its text is a sublist of that document's trimmed text. -/
theorem docLoop_fields (cs ov : ℕ) :
    ∀ (docs : List DocumentInput) (dI gid : ℕ) (c : Chunk),
      c ∈ docLoop cs ov docs dI gid →
        dI ≤ c.docIndex ∧ c.docIndex < dI + docs.length ∧
        c.docName = (docs.getD (c.docIndex - dI) default).name ∧
        List.Sublist c.text (trimChars (docs.getD (c.docIndex - dI) default).text) := by
  intro docs
  induction docs with
  | nil => intro dI gid c hc; cases hc
  | cons doc rest ih =>
    intro dI gid c hc
    simp only [docLoop] at hc
    by_cases ht : (trimChars doc.text).isEmpty
    · rw [if_pos ht] at hc
      obtain ⟨h1, h2, h3, h4⟩ := ih (dI + 1) gid c hc
      have hd : dI + 1 ≤ c.docIndex := h1
      refine ⟨by omega, by simp only [List.length_cons]; omega, ?_, ?_⟩
      · rw [show c.docIndex - dI = (c.docIndex - (dI + 1)) + 1 by omega, List.getD_cons_succ]
        exact h3
      · rw [show c.docIndex - dI = (c.docIndex - (dI + 1)) + 1 by omega, List.getD_cons_succ]
        exact h4
    · rw [if_neg ht] at hc
      rcases List.mem_append.mp hc with hc | hc
      · obtain ⟨hdI, hname⟩ := paraLoop_fields cs ov dI doc.name _ _ _ _ _ c hc
        have htext : List.Sublist c.text (trimChars doc.text) :=
          paraLoop_text_sublist cs ov dI doc.name (trimChars doc.text)
            (parasOf (trimChars doc.text)) [] [] 0 0 gid
            (parasOf_ne_nil _) rfl (fun _ => rfl)
            (by simpa using joinNN_parasOf_sublist (trimChars doc.text)) c hc
        refine ⟨by omega, by simp only [List.length_cons]; omega, ?_, ?_⟩
        · rw [hdI, Nat.sub_self, List.getD_cons_zero]
          exact hname
        · rw [hdI, Nat.sub_self, List.getD_cons_zero]
          exact htext
      · obtain ⟨h1, h2, h3, h4⟩ := ih (dI + 1) _ c hc
        refine ⟨by omega, by simp only [List.length_cons]; omega, ?_, ?_⟩
        · rw [show c.docIndex - dI = (c.docIndex - (dI + 1)) + 1 by omega, List.getD_cons_succ]
          exact h3
        · rw [show c.docIndex - dI = (c.docIndex - (dI + 1)) + 1 by omega, List.getD_cons_succ]
          exact h4

/-- Document order: `docIndex` is monotone along the emitted chunk list. -/
theorem docLoop_mono (cs ov : ℕ) :
    ∀ (docs : List DocumentInput) (dI gid : ℕ),
      (docLoop cs ov docs dI gid).Pairwise (fun a b => a.docIndex ≤ b.docIndex) := by
  intro docs
  induction docs with
  | nil => intro dI gid; exact List.Pairwise.nil
  | cons doc rest ih =>
    intro dI gid
    simp only [docLoop]
    by_cases ht : (trimChars doc.text).isEmpty
    · rw [if_pos ht]
      exact ih (dI + 1) gid
    · rw [if_neg ht]
      rw [List.pairwise_append]
      refine ⟨?_, ih (dI + 1) _, ?_⟩
      · apply List.pairwise_of_forall_mem_list
        intro a ha b hb
        rw [(paraLoop_fields cs ov dI doc.name _ _ _ _ _ a ha).1,
          (paraLoop_fields cs ov dI doc.name _ _ _ _ _ b hb).1]
      · intro a ha b hb
        rw [(paraLoop_fields cs ov dI doc.name _ _ _ _ _ a ha).1]
        have := (docLoop_fields cs ov rest (dI + 1) _ b hb).1
        omega

/-- Size bound across the document loop. -/
theorem docLoop_size (cs ov : ℕ) :
    ∀ (docs : List DocumentInput) (dI gid : ℕ) (c : Chunk),
      c ∈ docLoop cs ov docs dI gid → c.text.length ≤ cs := by
  intro docs
  induction docs with
  | nil => intro dI gid c hc; cases hc
  | cons doc rest ih =>
    intro dI gid c hc
    simp only [docLoop] at hc
    by_cases ht : (trimChars doc.text).isEmpty
    · rw [if_pos ht] at hc
      exact ih (dI + 1) gid c hc
    · rw [if_neg ht] at hc
      rcases List.mem_append.mp hc with hc | hc
      · exact paraLoop_size cs ov dI doc.name _ _ _ _ _ (by simp) c hc
      · exact ih (dI + 1) _ c hc

/-- Per-document coverage: the non-whitespace characters of each
document's trimmed text appear, in order, in the concatenation of the
texts of that document's chunks. -/
theorem docLoop_cover (cs ov : ℕ) (hov : ov < cs) :
    ∀ (docs : List DocumentInput) (dI gid d : ℕ), dI ≤ d → d < dI + docs.length →
      List.Sublist
        ((trimChars (docs.getD (d - dI) default).text).filter (fun c => !isWs c))
        (((docLoop cs ov docs dI gid).filter (fun c => c.docIndex == d)).map Chunk.text).flatten := by
  intro docs
  induction docs with
  | nil =>
    intro dI gid d h1 h2
    simp only [List.length_nil] at h2
    omega
  | cons doc rest ih =>
    intro dI gid d h1 h2
    simp only [docLoop]
    by_cases hd : d = dI
    · subst hd
      rw [Nat.sub_self, List.getD_cons_zero]
      by_cases ht : (trimChars doc.text).isEmpty
      · rw [if_pos ht]
        have hT : trimChars doc.text = [] := by simpa [List.isEmpty_iff] using ht
        have hnil : (docLoop cs ov rest (d + 1) gid).filter (fun c => c.docIndex == d) = [] := by
          apply List.filter_eq_nil_iff.mpr
          intro c hc
          have := (docLoop_fields cs ov rest (d + 1) gid c hc).1
          simp only [beq_iff_eq]
          omega
        rw [hnil, hT]
        simp
      · rw [if_neg ht]
        rw [List.filter_append]
        have hhead : (paraLoop cs ov d doc.name (parasOf (trimChars doc.text)) [] 0 0 gid).1.filter
            (fun c => c.docIndex == d) =
            (paraLoop cs ov d doc.name (parasOf (trimChars doc.text)) [] 0 0 gid).1 := by
          apply List.filter_eq_self.mpr
          intro c hc
          have := (paraLoop_fields cs ov d doc.name _ _ _ _ _ c hc).1
          simp [this]
        have htail : ∀ g : ℕ,
            (docLoop cs ov rest (d + 1) g).filter (fun c => c.docIndex == d) = [] := by
          intro g
          apply List.filter_eq_nil_iff.mpr
          intro c hc
          have := (docLoop_fields cs ov rest (d + 1) g c hc).1
          simp only [beq_iff_eq]
          omega
        rw [hhead, htail _, List.append_nil]
        have hcover := paraLoop_cover cs ov d doc.name hov (parasOf (trimChars doc.text)) [] 0 0 gid
        rw [List.nil_append] at hcover
        have heq := filter_flatten_parasOf (trimChars doc.text)
        refine List.Sublist.trans ?_ hcover
        rw [← heq]
        exact List.filter_sublist _
    · have hdgt : dI + 1 ≤ d := by omega
      by_cases ht : (trimChars doc.text).isEmpty
      · rw [if_pos ht]
        have := ih (dI + 1) gid d hdgt (by simp only [List.length_cons] at h2; omega)
        rw [show d - dI = (d - (dI + 1)) + 1 by omega, List.getD_cons_succ]
        exact this
      · rw [if_neg ht]
        rw [List.filter_append]
        have hhead : (paraLoop cs ov dI doc.name (parasOf (trimChars doc.text)) [] 0 0 gid).1.filter
            (fun c => c.docIndex == d) = [] := by
          apply List.filter_eq_nil_iff.mpr
          intro c hc
          have := (paraLoop_fields cs ov dI doc.name _ _ _ _ _ c hc).1
          simp only [beq_iff_eq]
          omega
        rw [hhead, List.nil_append]
        have := ih (dI + 1)
          (paraLoop cs ov dI doc.name (parasOf (trimChars doc.text)) [] 0 0 gid).2 d hdgt
          (by simp only [List.length_cons] at h2; omega)
        rw [show d - dI = (d - (dI + 1)) + 1 by omega, List.getD_cons_succ]
        exact this

/-! ### BM25: score algebra, non-negativity, sorting -/

theorem foldl_add_map_sum {α : Type} (f : α → ℝ) :
    ∀ (l : List α) (s0 : ℝ), l.foldl (fun s t => s + f t) s0 = s0 + (l.map f).sum := by
  intro l
  induction l with
  | nil => intro s0; simp
  | cons t rest ih =>
    intro s0
    simp only [List.foldl_cons, List.map_cons, List.sum_cons, ih]
    ring

theorem sum_map_filter_eq {α : Type} (f : α → ℝ) (p : α → Bool) :
    ∀ (l : List α), (∀ t ∈ l, p t = false → f t = 0) →
      (l.map f).sum = ((l.filter p).map f).sum := by
  intro l
  induction l with
  | nil => intro h; rfl
  | cons t rest ih =>
    intro h
    by_cases hp : p t
    · rw [List.filter_cons_of_pos hp]
      simp only [List.map_cons, List.sum_cons]
      rw [ih (fun u hu => h u (List.mem_cons_of_mem _ hu))]
    · rw [List.filter_cons_of_neg (by simpa using hp)]
      simp only [List.map_cons, List.sum_cons]
      rw [h t (List.mem_cons_self _ _) (by simpa using hp),
        ih (fun u hu => h u (List.mem_cons_of_mem _ hu)), zero_add]

theorem avgdlOf_nonneg (chunks : List Chunk) : 0 ≤ avgdlOf chunks := by
  unfold avgdlOf
  positivity

theorem dfOf_le_length (chunks : List Chunk) (term : List Char) :
    dfOf chunks term ≤ chunks.length :=
  List.countP_le_length _

theorem idfOf_nonneg (N df : ℕ) (h : df ≤ N) : 0 ≤ idfOf N df := by
  unfold idfOf
  apply Real.log_nonneg
  have hnum : (0 : ℝ) ≤ (N : ℝ) - (df : ℝ) + 0.5 := by
    have : (df : ℝ) ≤ (N : ℝ) := by exact_mod_cast h
    linarith
  have hden : (0 : ℝ) < (df : ℝ) + 0.5 := by positivity
  have := div_nonneg hnum (le_of_lt hden)
  linarith

theorem tfNormOf_nonneg (tf dl : ℕ) (avgdl : ℝ) (h : 0 ≤ avgdl) :
    0 ≤ tfNormOf tf dl avgdl := by
  unfold tfNormOf
  apply div_nonneg (by positivity)
  have : (0 : ℝ) ≤ (dl : ℝ) / avgdl := div_nonneg (by positivity) h
  positivity

theorem termScore_nonneg (chunks : List Chunk) (toks : List (List Char))
    (term : List Char) : 0 ≤ termScore chunks (avgdlOf chunks) toks term := by
  unfold termScore
  by_cases h : dfOf chunks term = 0
  · rw [if_pos h]
  · rw [if_neg h]
    exact mul_nonneg (idfOf_nonneg _ _ (dfOf_le_length chunks term))
      (tfNormOf_nonneg _ _ _ (avgdlOf_nonneg chunks))

theorem chunkScore_eq_sum (chunks : List Chunk) (queryTerms : List (List Char))
    (chunk : Chunk) :
    chunkScore chunks queryTerms chunk =
      (queryTerms.map (termScore chunks (avgdlOf chunks) (tokenize chunk.text))).sum := by
  unfold chunkScore
  rw [foldl_add_map_sum, zero_add]

theorem chunkScore_nonneg (chunks : List Chunk) (queryTerms : List (List Char))
    (chunk : Chunk) : 0 ≤ chunkScore chunks queryTerms chunk := by
  rw [chunkScore_eq_sum]
  apply List.sum_nonneg
  intro x hx
  simp only [List.mem_map] at hx
  obtain ⟨t, -, rfl⟩ := hx
  exact termScore_nonneg chunks _ t

theorem chunkScore_eq_zero (chunks : List Chunk) (queryTerms : List (List Char))
    (chunk : Chunk)
    (h : ∀ t ∈ queryTerms, dfOf chunks t = 0 ∨ (tokenize chunk.text).count t = 0) :
    chunkScore chunks queryTerms chunk = 0 := by
  rw [chunkScore_eq_sum]
  apply List.sum_eq_zero
  intro x hx
  simp only [List.mem_map] at hx
  obtain ⟨t, ht, rfl⟩ := hx
  rcases h t ht with hdf | htf
  · simp [termScore, hdf]
  · unfold termScore tfNormOf
    rw [htf]
    by_cases hdf : dfOf chunks t = 0
    · rw [if_pos hdf]
    · rw [if_neg hdf]
      simp

theorem mem_insertDesc (c : ScoredChunk) :
    ∀ (l : List ScoredChunk) (x : ScoredChunk), x ∈ insertDesc c l ↔ x = c ∨ x ∈ l := by
  intro l
  induction l with
  | nil => intro x; simp [insertDesc]
  | cons d rest ih =>
    intro x
    unfold insertDesc
    by_cases h : d.score < c.score
    · rw [if_pos h]
      exact List.mem_cons
    · rw [if_neg h]
      rw [List.mem_cons, List.mem_cons, ih x]
      tauto

theorem mem_sortDesc (l : List ScoredChunk) (x : ScoredChunk) :
    x ∈ sortDesc l ↔ x ∈ l := by
  induction l with
  | nil => simp [sortDesc]
  | cons d rest ih =>
    show x ∈ insertDesc d (sortDesc rest) ↔ _
    rw [mem_insertDesc, ih]
    simp

theorem insertDesc_sorted (c : ScoredChunk) :
    ∀ (l : List ScoredChunk), l.Pairwise (fun a b => b.score ≤ a.score) →
      (insertDesc c l).Pairwise (fun a b => b.score ≤ a.score) := by
  intro l
  induction l with
  | nil => intro h; simp [insertDesc]
  | cons d rest ih =>
    intro h
    rw [List.pairwise_cons] at h
    unfold insertDesc
    by_cases hlt : d.score < c.score
    · rw [if_pos hlt]
      rw [List.pairwise_cons]
      refine ⟨?_, List.pairwise_cons.mpr h⟩
      intro x hx
      rcases List.mem_cons.mp hx with rfl | hx
      · exact le_of_lt hlt
      · exact le_trans (h.1 x hx) (le_of_lt hlt)
    · rw [if_neg hlt]
      rw [List.pairwise_cons]
      refine ⟨?_, ih h.2⟩
      intro x hx
      rcases (mem_insertDesc c rest x).mp hx with rfl | hx
      · exact le_of_not_lt hlt
      · exact h.1 x hx

theorem sortDesc_sorted (l : List ScoredChunk) :
    (sortDesc l).Pairwise (fun a b => b.score ≤ a.score) := by
  induction l with
  | nil => exact List.Pairwise.nil
  | cons d rest ih => exact insertDesc_sorted d (sortDesc rest) ih

/-- Returned entries come from the scored list and carry positive score. -/
theorem mem_bm25Search (chunks : List Chunk) (query : List Char) (topK : ℕ)
    (x : ScoredChunk) (hx : x ∈ bm25Search chunks query topK) :
    x ∈ scoredChunks chunks query ∧ 0 < x.score := by
  unfold bm25Search at hx
  by_cases h : chunks.isEmpty
  · rw [if_pos h] at hx
    cases hx
  · rw [if_neg h] at hx
    have h1 := List.mem_of_mem_take hx
    rw [mem_sortDesc] at h1
    have h2 := List.mem_filter.mp h1
    exact ⟨h2.1, by simpa using h2.2⟩

/-- Overlap identity for consecutive windows: the last
`min ov (L - (k+1)·step)` characters of window `k` equal the first that
many characters of window `k+1`. -/
theorem charWindows_overlap (para : List Char) (cs ov : ℕ) (hov : ov < cs) (k : ℕ)
    (h : (k + 1) * (cs - ov) < para.length) :
    (((para.drop (k * (cs - ov))).take cs).drop
        (((para.drop (k * (cs - ov))).take cs).length -
          min ov (para.length - (k + 1) * (cs - ov)))) =
      ((para.drop ((k + 1) * (cs - ov))).take cs).take
        (min ov (para.length - (k + 1) * (cs - ov))) := by
  have hs : 0 < cs - ov := by omega
  have hka : (k + 1) * (cs - ov) = k * (cs - ov) + (cs - ov) := by ring
  have hlenW : ((para.drop (k * (cs - ov))).take cs).length =
      min cs (para.length - k * (cs - ov)) := by
    rw [List.length_take, List.length_drop]
  have hmin : min cs (para.length - k * (cs - ov)) -
      min ov (para.length - (k + 1) * (cs - ov)) = cs - ov := by
    omega
  rw [hlenW, hmin]
  rw [List.drop_take]
  rw [List.drop_drop]
  rw [List.take_take]
  have hdx : k * (cs - ov) + (cs - ov) = (k + 1) * (cs - ov) := by ring
  rw [hdx]
  rw [show cs - (cs - ov) = ov by omega]
  apply List.take_eq_take.mpr
  rw [List.length_drop]
  omega

/-- Claim C1 (code_bug): the specification requires `chunkDocuments` to
reject `overlap ≥ chunkSize` with a validation error and never to loop
forever, but the source has no such guard: with `chunkSize = 1`,
`overlap = 1` the raw character-fallback loop advances its position by
`1 - 1 = 0` and never terminates on any paragraph longer than
`chunkSize` — here the single paragraph `"ab"` of the document
`{name := "d", text := "ab"}`, which the splitter feeds to the fallback
since its length 2 exceeds `chunkSize = 1`.  The fuel-based faithful
embedding of the loop returns `none` for every amount of fuel. -/
theorem claim_C1 :
    (∀ fuel : ℕ, charWindowsFuel ['a', 'b'] 1 1 0 fuel = none) ∧
    parasOf (trimChars ['a', 'b']) = [['a', 'b']] ∧
    1 < (['a', 'b'] : List Char).length := by
  refine ⟨?_, ?_, by decide⟩
  · intro fuel
    induction fuel with
    | zero => rfl
    | succ fuel ih =>
      rw [charWindowsFuel]
      rw [if_pos (by norm_num)]
      rw [show (0 : ℤ) + (1 - 1) = 0 by ring, ih]
  · have ht : trimChars ['a', 'b'] = ['a', 'b'] := by decide
    have hs : splitNN [] ['a', 'b'] = [['a', 'b']] := by
      rw [splitNN.eq_3 [] 'a' ['b'] (fun r h1 _ => absurd h1 (by decide)),
        splitNN.eq_3 ['a'] 'b' [] (fun r _ h2 => List.noConfusion h2),
        splitNN.eq_1]
      decide
    rw [ht]
    unfold parasOf
    rw [hs]
    decide

/-- Claim C2, counterexample: the character fallback on a 1000-character
paragraph with `chunkSize = 400`, `overlap = 80` emits 4 windows, not the
3 the claim's formula `⌈(L - overlap) / (chunkSize - overlap)⌉`
predicts — the loop keeps running while `pos < L`, producing a final
window that starts inside the previous one's tail. -/
theorem claim_C2_counterexample :
    (charWindows (List.replicate 1000 'a') 400 80 0).length = 4 ∧
    (1000 - 80 + (400 - 80) - 1) / (400 - 80) = 3 := by
  constructor
  · rw [charWindows_length _ _ _ (by norm_num), List.length_replicate]
  · norm_num

/-- Claim C2 (amended): for a single paragraph of length `L > chunkSize`
with `overlap < chunkSize`, the character fallback emits exactly
`⌈L / (chunkSize - overlap)⌉` windows (not `⌈(L - overlap) / step⌉`),
the `k`-th window starting at `k · step` with text
`para.slice(k·step, k·step + chunkSize)`, every window at most
`chunkSize` characters, and consecutive windows sharing
`min overlap (L - (k+1)·step)` characters at the boundary — exactly
`overlap` whenever the next window start leaves at least `overlap`
characters, less for the trailing degenerate window. -/
theorem claim_C2 (para : List Char) (cs ov : ℕ) (hov : ov < cs) (hL : cs < para.length) :
    (charWindows para cs ov 0).length = (para.length + (cs - ov) - 1) / (cs - ov) ∧
    (∀ k, k < (charWindows para cs ov 0).length →
      (charWindows para cs ov 0).getD k (0, []) =
        (k * (cs - ov), (para.drop (k * (cs - ov))).take cs)) ∧
    (∀ w ∈ charWindows para cs ov 0, w.2.length ≤ cs) ∧
    (∀ k, (k + 1) * (cs - ov) < para.length →
      (((para.drop (k * (cs - ov))).take cs).drop
          (((para.drop (k * (cs - ov))).take cs).length -
            min ov (para.length - (k + 1) * (cs - ov)))) =
        ((para.drop ((k + 1) * (cs - ov))).take cs).take
          (min ov (para.length - (k + 1) * (cs - ov)))) := by
  refine ⟨charWindows_length para cs ov hov, ?_, charWindows_snd_length para cs ov hov 0, ?_⟩
  · intro k hk
    rw [charWindows_eq_map para cs ov hov 0] at hk ⊢
    rw [List.getD_eq_getElem _ _ (by simpa using hk)]
    simp only [List.length_map, List.length_range] at hk
    simp [hk]
  · intro k hk
    exact charWindows_overlap para cs ov hov k hk

/-- Witness for C2: a 6-character paragraph with `chunkSize = 3`,
`overlap = 1` yields `⌈6 / 2⌉ = 3` windows. -/
theorem claim_C2_witness :
    (charWindows ['a', 'b', 'c', 'd', 'e', 'f'] 3 1 0).length =
      ((['a', 'b', 'c', 'd', 'e', 'f'] : List Char).length + (3 - 1) - 1) / (3 - 1) :=
  (claim_C2 ['a', 'b', 'c', 'd', 'e', 'f'] 3 1 (by decide) (by decide)).1

/-- Claim C4: with a valid configuration (`overlap < chunkSize`) every
chunk emitted by `chunkDocuments` — accumulated or fallback — has text of
length at most `chunkSize`. -/
theorem claim_C4 (docs : List DocumentInput) (cs ov : ℕ) (hov : ov < cs) :
    ∀ c ∈ chunkDocuments docs cs ov, c.text.length ≤ cs := by
  intro c hc
  exact docLoop_size cs ov docs 0 0 c hc

/-- Witness for C4 at a concrete document forcing the fallback path. -/
theorem claim_C4_witness :
    (chunkDocuments [⟨"a", ('h' :: 'e' :: 'l' :: 'l' :: 'o' :: ' ' ::
        'w' :: 'o' :: 'r' :: 'l' :: 'd' :: [])⟩] 6 2).Forall
      (fun c => c.text.length ≤ 6) :=
  List.forall_iff_forall_mem.mpr
    (claim_C4 [⟨"a", ('h' :: 'e' :: 'l' :: 'l' :: 'o' :: ' ' ::
      'w' :: 'o' :: 'r' :: 'l' :: 'd' :: [])⟩] 6 2 (by decide))

/-- Claim C5: in one `chunkDocuments` call the emitted chunks carry ids
exactly `0..n-1` in emission order, `docIndex` is monotone along the list
(document-then-position order), and every chunk belongs to a single
source document: its `docIndex` is in range, `docName` is that document's
name, and its text is a sublist of that document's trimmed text alone. -/
theorem claim_C5 (docs : List DocumentInput) (cs ov : ℕ) (hov : ov < cs) :
    (chunkDocuments docs cs ov).map Chunk.id =
      List.range (chunkDocuments docs cs ov).length ∧
    (chunkDocuments docs cs ov).Pairwise (fun a b => a.docIndex ≤ b.docIndex) ∧
    ∀ c ∈ chunkDocuments docs cs ov, c.docIndex < docs.length ∧
      c.docName = (docs.getD c.docIndex default).name ∧
      List.Sublist c.text (trimChars (docs.getD c.docIndex default).text) := by
  refine ⟨?_, docLoop_mono cs ov docs 0 0, ?_⟩
  · rw [List.range_eq_range']
    exact docLoop_map_id cs ov docs 0 0
  · intro c hc
    obtain ⟨h1, h2, h3, h4⟩ := docLoop_fields cs ov docs 0 0 c hc
    rw [Nat.sub_zero] at h3 h4
    exact ⟨by omega, h3, h4⟩

/-- Witness for C5 at a two-document input. -/
theorem claim_C5_witness :
    (chunkDocuments [⟨"a", ('h' :: 'i' :: [])⟩, ⟨"b", ('y' :: 'o' :: [])⟩] 6 2).map Chunk.id =
        List.range (chunkDocuments [⟨"a", ('h' :: 'i' :: [])⟩,
          ⟨"b", ('y' :: 'o' :: [])⟩] 6 2).length ∧
      (chunkDocuments [⟨"a", ('h' :: 'i' :: [])⟩, ⟨"b", ('y' :: 'o' :: [])⟩] 6 2).Pairwise
        (fun a b => a.docIndex ≤ b.docIndex) ∧
      (chunkDocuments [⟨"a", ('h' :: 'i' :: [])⟩, ⟨"b", ('y' :: 'o' :: [])⟩] 6 2).Forall
        (fun c =>
          c.docIndex < ([⟨"a", ('h' :: 'i' :: [])⟩,
              ⟨"b", ('y' :: 'o' :: [])⟩] : List DocumentInput).length ∧
          c.docName = (([⟨"a", ('h' :: 'i' :: [])⟩,
              ⟨"b", ('y' :: 'o' :: [])⟩] : List DocumentInput).getD c.docIndex default).name ∧
          List.Sublist c.text (trimChars (([⟨"a", ('h' :: 'i' :: [])⟩,
              ⟨"b", ('y' :: 'o' :: [])⟩] : List DocumentInput).getD c.docIndex default).text)) :=
  have h := claim_C5 [⟨"a", ('h' :: 'i' :: [])⟩, ⟨"b", ('y' :: 'o' :: [])⟩] 6 2 (by decide)
  ⟨h.1, h.2.1, List.forall_iff_forall_mem.mpr h.2.2⟩

/-- Claim C6: for every document, the non-whitespace characters of its
trimmed text appear, in reading order and with nothing omitted, within
the concatenation of the texts of that document's chunks. -/
theorem claim_C6 (docs : List DocumentInput) (cs ov d : ℕ) (hov : ov < cs)
    (hd : d < docs.length) :
    List.Sublist ((trimChars (docs.getD d default).text).filter (fun c => !isWs c))
      (((chunkDocuments docs cs ov).filter (fun c => c.docIndex == d)).map
        Chunk.text).flatten := by
  have := docLoop_cover cs ov hov docs 0 0 d (Nat.zero_le d) (by omega)
  rw [Nat.sub_zero] at this
  exact this

/-- Witness for C6 at a concrete document using the fallback path. -/
theorem claim_C6_witness :
    List.Sublist
      ((trimChars (([⟨"a", ('h' :: 'e' :: 'l' :: 'l' :: 'o' :: ' ' ::
          'w' :: 'o' :: 'r' :: 'l' :: 'd' :: [])⟩] : List DocumentInput).getD 0
          default).text).filter (fun c => !isWs c))
      (((chunkDocuments [⟨"a", ('h' :: 'e' :: 'l' :: 'l' :: 'o' :: ' ' ::
          'w' :: 'o' :: 'r' :: 'l' :: 'd' :: [])⟩] 6 2).filter
        (fun c => c.docIndex == 0)).map Chunk.text).flatten :=
  claim_C6 [⟨"a", ('h' :: 'e' :: 'l' :: 'l' :: 'o' :: ' ' ::
    'w' :: 'o' :: 'r' :: 'l' :: 'd' :: [])⟩] 6 2 0 (by decide) (by decide)

/-- Claim C3: the score `bm25Search` computes for each chunk (via
`scoredChunks`) equals the specification's closed form — the sum, over
the distinct query terms with positive document frequency, of
`idf(t) · tf_norm(t, i)` with the smoothed IDF and the
`k1 = 1.5`, `b = 0.75` length normalization; corpus-absent terms are
skipped before the IDF and contribute nothing. -/
theorem claim_C3 (chunks : List Chunk) (query : List Char) (chunk : Chunk) :
    chunkScore chunks (dedupFirst (tokenize query)) chunk = bm25SpecScore chunks query chunk ∧
    scoredChunks chunks query = chunks.map (fun c =>
      { toChunk := c
        score := chunkScore chunks (dedupFirst (tokenize query)) c
        termMatches := chunkMatches chunks (dedupFirst (tokenize query)) c }) := by
  refine ⟨?_, rfl⟩
  rw [chunkScore_eq_sum]
  unfold bm25SpecScore
  rw [sum_map_filter_eq (termScore chunks (avgdlOf chunks) (tokenize chunk.text))
    (fun t => decide (0 < dfOf chunks t)) (dedupFirst (tokenize query)) ?_]
  · apply congrArg List.sum
    apply List.map_congr_left
    intro t ht
    have hdf : 0 < dfOf chunks t := by
      have := (List.mem_filter.mp ht).2
      simpa using this
    unfold termScore idfOf tfNormOf
    rw [if_neg (by omega)]
  · intro t _ hfalse
    have hdf : dfOf chunks t = 0 := by
      have : ¬ 0 < dfOf chunks t := by simpa using hfalse
      omega
    simp [termScore, hdf]

/-- Claim C7: every score computed by the scorer — returned or not — is
non-negative, and the smoothed IDF is non-negative for every document
frequency up to the corpus size (in particular for a term occurring in
every chunk). -/
theorem claim_C7 :
    (∀ (chunks : List Chunk) (query : List Char),
      ∀ sc ∈ scoredChunks chunks query, 0 ≤ sc.score) ∧
    (∀ N df : ℕ, df ≤ N → 0 ≤ idfOf N df) := by
  constructor
  · intro chunks query sc hsc
    unfold scoredChunks at hsc
    simp only [List.mem_map] at hsc
    obtain ⟨c, -, rfl⟩ := hsc
    exact chunkScore_nonneg chunks _ c
  · exact fun N df h => idfOf_nonneg N df h

/-- Witness for C7: the IDF of a term occurring in all 5 chunks of a
5-chunk corpus is still non-negative. -/
theorem claim_C7_witness : 0 ≤ idfOf 5 5 :=
  claim_C7.2 5 5 (by decide)

/-- Claim C8: `bm25Search` returns at most `topK` entries, every
returned entry has strictly positive score, and the returned list is
sorted by descending score. -/
theorem claim_C8 (chunks : List Chunk) (query : List Char) (topK : ℕ) :
    (bm25Search chunks query topK).length ≤ topK ∧
    (∀ sc ∈ bm25Search chunks query topK, 0 < sc.score) ∧
    (bm25Search chunks query topK).Pairwise (fun a b => b.score ≤ a.score) := by
  refine ⟨?_, fun sc hsc => (mem_bm25Search chunks query topK sc hsc).2, ?_⟩
  · unfold bm25Search
    by_cases h : chunks.isEmpty
    · rw [if_pos h]
      simp
    · rw [if_neg h]
      exact List.length_take_le _ _
  · unfold bm25Search
    by_cases h : chunks.isEmpty
    · rw [if_pos h]
      exact List.Pairwise.nil
    · rw [if_neg h]
      exact (sortDesc_sorted _).sublist (List.take_sublist _ _)

/-- Claim C9: `bm25Search` is pure in the embedding, and every returned
`ScoredChunk` carries one of the input chunks unchanged — its `id`,
`text`, `docIndex`, `docName` and `startChar` are exactly those of the
input chunk it extends, only `score` and `termMatches` being added. -/
theorem claim_C9 (chunks : List Chunk) (query : List Char) (topK : ℕ) :
    ∀ sc ∈ bm25Search chunks query topK, sc.toChunk ∈ chunks := by
  intro sc hsc
  have h1 := (mem_bm25Search chunks query topK sc hsc).1
  unfold scoredChunks at h1
  simp only [List.mem_map] at h1
  obtain ⟨c, hc, rfl⟩ := h1
  exact hc

/-- Claim C10: every returned entry has a non-empty `termMatches` list,
and some distinct query term actually occurs in its tokenized text; a
chunk containing no query term is never returned. -/
theorem claim_C10 (chunks : List Chunk) (query : List Char) (topK : ℕ) :
    ∀ sc ∈ bm25Search chunks query topK,
      sc.termMatches ≠ [] ∧
      ∃ t ∈ dedupFirst (tokenize query), 0 < (tokenize sc.text).count t := by
  intro sc hsc
  obtain ⟨h1, hpos⟩ := mem_bm25Search chunks query topK sc hsc
  unfold scoredChunks at h1
  simp only [List.mem_map] at h1
  obtain ⟨c, hc, rfl⟩ := h1
  have hex : ∃ t ∈ dedupFirst (tokenize query),
      dfOf chunks t ≠ 0 ∧ 0 < (tokenize c.text).count t := by
    by_contra hno
    push_neg at hno
    have h0 : chunkScore chunks (dedupFirst (tokenize query)) c = 0 := by
      apply chunkScore_eq_zero
      intro t ht
      rcases Nat.eq_zero_or_pos (dfOf chunks t) with h | h
      · exact Or.inl h
      · have := hno t ht (by omega)
        right
        omega
    have : (0 : ℝ) < 0 := by
      have hsc' : (0 : ℝ) <
          chunkScore chunks (dedupFirst (tokenize query)) c := hpos
      rw [h0] at hsc'
      exact hsc'
    exact absurd this (lt_irrefl 0)
  obtain ⟨t, ht, hdf, hcnt⟩ := hex
  constructor
  · intro hemp
    have hmem : t ∈ chunkMatches chunks (dedupFirst (tokenize query)) c := by
      unfold chunkMatches
      exact List.mem_filter.mpr ⟨ht, by simp [hdf, hcnt]⟩
    have : t ∈ ([] : List (List Char)) := by
      rw [← hemp]
      exact hmem
    cases this
  · exact ⟨t, ht, hcnt⟩

/-- The example query tokenizes and deduplicates to the single term
`"food"`. -/
theorem exQuery_terms : dedupFirst (tokenize exQuery) = [['f', 'o', 'o', 'd']] := by
  have h1 : tokenize exQuery = [['f', 'o', 'o', 'd']] := by decide
  rw [h1, dedupFirst.eq_2, List.filter_nil, dedupFirst.eq_1]

/-- The example chunk scores strictly positively against the example
query: its single matching term has document frequency 1 in the
1-chunk corpus, giving score `ln(4/3) · 1 > 0`. -/
theorem exChunk_score_pos :
    0 < chunkScore [exChunk] (dedupFirst (tokenize exQuery)) exChunk := by
  rw [exQuery_terms]
  unfold chunkScore
  simp only [List.foldl_cons, List.foldl_nil, zero_add]
  unfold termScore
  have htoks : tokenize exChunk.text = [['c', 'a', 't'], ['f', 'o', 'o', 'd']] := by decide
  have hdf : dfOf [exChunk] ['f', 'o', 'o', 'd'] = 1 := by decide
  have havg : avgdlOf [exChunk] = 2 := by
    unfold avgdlOf
    rw [show ([exChunk].map (fun c => (tokenize c.text).length)).sum = 2 from by decide]
    norm_num
  rw [htoks, hdf, havg, if_neg (by decide)]
  rw [show ([['c', 'a', 't'], ['f', 'o', 'o', 'd']] : List (List Char)).count
      ['f', 'o', 'o', 'd'] = 1 from by decide,
    show ([['c', 'a', 't'], ['f', 'o', 'o', 'd']] : List (List Char)).length = 2 from by decide]
  apply mul_pos
  · unfold idfOf
    apply Real.log_pos
    rw [show ([exChunk] : List Chunk).length = 1 from rfl]
    norm_num
  · unfold tfNormOf
    apply div_pos
    · norm_num
    · norm_num

/-- Searching the one-chunk example corpus for `"food"` returns exactly
the scored example chunk. -/
theorem exChunk_search :
    bm25Search [exChunk] exQuery 5 =
      [{ toChunk := exChunk,
         score := chunkScore [exChunk] (dedupFirst (tokenize exQuery)) exChunk,
         termMatches := chunkMatches [exChunk] (dedupFirst (tokenize exQuery)) exChunk }] := by
  unfold bm25Search
  rw [if_neg (by decide)]
  have hsc : scoredChunks [exChunk] exQuery =
      [{ toChunk := exChunk,
         score := chunkScore [exChunk] (dedupFirst (tokenize exQuery)) exChunk,
         termMatches := chunkMatches [exChunk] (dedupFirst (tokenize exQuery)) exChunk }] := rfl
  rw [hsc]
  rw [List.filter_eq_self.mpr (by
    intro a ha
    rw [List.mem_singleton] at ha
    subst ha
    exact decide_eq_true exChunk_score_pos)]
  rfl

/-- Witness for C8: the example search result's entry has positive
score. -/
theorem claim_C8_witness :
    0 < ({ toChunk := exChunk,
           score := chunkScore [exChunk] (dedupFirst (tokenize exQuery)) exChunk,
           termMatches := chunkMatches [exChunk] (dedupFirst (tokenize exQuery)) exChunk } :
      ScoredChunk).score :=
  (claim_C8 [exChunk] exQuery 5).2.1 _ (by rw [exChunk_search]; exact List.mem_singleton.mpr rfl)

/-- Witness for C9: the returned entry of the example search carries the
original input chunk. -/
theorem claim_C9_witness :
    ({ toChunk := exChunk,
       score := chunkScore [exChunk] (dedupFirst (tokenize exQuery)) exChunk,
       termMatches := chunkMatches [exChunk] (dedupFirst (tokenize exQuery)) exChunk } :
      ScoredChunk).toChunk ∈ [exChunk] :=
  claim_C9 [exChunk] exQuery 5 _ (by rw [exChunk_search]; exact List.mem_singleton.mpr rfl)

/-- Witness for C10: the returned entry of the example search has a
non-empty match list and an occurring query term. -/
theorem claim_C10_witness :
    ({ toChunk := exChunk,
       score := chunkScore [exChunk] (dedupFirst (tokenize exQuery)) exChunk,
       termMatches := chunkMatches [exChunk] (dedupFirst (tokenize exQuery)) exChunk } :
      ScoredChunk).termMatches ≠ [] ∧
    ∃ t ∈ dedupFirst (tokenize exQuery),
      0 < (tokenize
        ({ toChunk := exChunk,
           score := chunkScore [exChunk] (dedupFirst (tokenize exQuery)) exChunk,
           termMatches := chunkMatches [exChunk] (dedupFirst (tokenize exQuery)) exChunk } :
          ScoredChunk).text).count t :=
  claim_C10 [exChunk] exQuery 5 _ (by rw [exChunk_search]; exact List.mem_singleton.mpr rfl)

end Rag
